import Mathlib

/-!
Verification of the job-market-analysis data pipeline.

The Python sources are shallowly embedded: pandas `Series` become Lean
lists (a missing value `NaN` becomes `Option.none`), pandas tables
become association lists, and the library primitives the scripts call
(`value_counts`, `groupby` + `agg`, `str.replace`, the `json.loads`
result dispatch, numpy `argsort`) are modelled by executable Lean
functions with the semantics those calls have on the data shapes the
scripts feed them.  Python strings are manipulated through their
character lists so that every operation is computable by the kernel.
-/

namespace JobMarket

/-! ### Generic list utilities (models of pandas/numpy primitives) -/

/-- Distinct values of a list in order of first occurrence, skipping
values already in `seen`.  This is the key order produced by the
insertion-ordered hash tables backing `pandas.Series.unique` and
`value_counts`. -/
def distinctFirstAux {α : Type} [DecidableEq α] (seen : List α) : List α → List α
  | [] => []
  | x :: xs =>
    if x ∈ seen then distinctFirstAux seen xs
    else x :: distinctFirstAux (x :: seen) xs

/-- Distinct values of a list in order of first occurrence. -/
def distinctFirst {α : Type} [DecidableEq α] (l : List α) : List α :=
  distinctFirstAux [] l

theorem mem_distinctFirstAux {α : Type} [DecidableEq α] (l : List α) :
    ∀ (seen : List α) (a : α),
      a ∈ distinctFirstAux seen l ↔ a ∈ l ∧ a ∉ seen := by
  induction l with
  | nil => intro seen a; simp [distinctFirstAux]
  | cons x xs ih =>
    intro seen a
    rw [distinctFirstAux]
    by_cases hx : x ∈ seen
    · rw [if_pos hx, ih]
      constructor
      · rintro ⟨ha, hs⟩
        exact ⟨List.mem_cons_of_mem _ ha, hs⟩
      · rintro ⟨ha, hs⟩
        rcases List.mem_cons.mp ha with rfl | ha'
        · exact absurd hx hs
        · exact ⟨ha', hs⟩
    · rw [if_neg hx]
      simp only [List.mem_cons, ih]
      constructor
      · rintro (rfl | ⟨ha, hs⟩)
        · exact ⟨.inl rfl, hx⟩
        · exact ⟨.inr ha, fun hc => hs (.inr hc)⟩
      · rintro ⟨rfl | ha, hs⟩
        · exact .inl rfl
        · by_cases hax : a = x
          · exact .inl hax
          · exact .inr ⟨ha, fun hc => hc.elim hax hs⟩

theorem mem_distinctFirst {α : Type} [DecidableEq α] (l : List α) (a : α) :
    a ∈ distinctFirst l ↔ a ∈ l := by
  rw [distinctFirst, mem_distinctFirstAux]
  simp

theorem nodup_distinctFirstAux {α : Type} [DecidableEq α] (l : List α) :
    ∀ seen : List α, (distinctFirstAux seen l).Nodup := by
  induction l with
  | nil => intro seen; simp [distinctFirstAux]
  | cons x xs ih =>
    intro seen
    rw [distinctFirstAux]
    by_cases hx : x ∈ seen
    · rw [if_pos hx]; exact ih seen
    · rw [if_neg hx]
      refine List.nodup_cons.mpr ⟨?_, ih (x :: seen)⟩
      rw [mem_distinctFirstAux]
      simp

theorem nodup_distinctFirst {α : Type} [DecidableEq α] (l : List α) :
    (distinctFirst l).Nodup := nodup_distinctFirstAux l []

theorem distinctFirstAux_sublist {α : Type} [DecidableEq α] (l : List α) :
    ∀ seen : List α, (distinctFirstAux seen l).Sublist l := by
  induction l with
  | nil => intro seen; simp [distinctFirstAux]
  | cons x xs ih =>
    intro seen
    rw [distinctFirstAux]
    by_cases hx : x ∈ seen
    · rw [if_pos hx]
      exact (ih seen).trans (List.sublist_cons_self x xs)
    · rw [if_neg hx]
      exact (ih (x :: seen)).cons₂ x

theorem distinctFirst_sublist {α : Type} [DecidableEq α] (l : List α) :
    (distinctFirst l).Sublist l := distinctFirstAux_sublist l []

/-- Entries of the first-occurrence distinct list are ordered by the
index of their first occurrence in the original list. -/
theorem distinctFirstAux_pairwise_indexOf {α : Type} [DecidableEq α] (l : List α) :
    ∀ seen : List α,
      (distinctFirstAux seen l).Pairwise (fun a b => l.indexOf a < l.indexOf b) := by
  induction l with
  | nil => intro seen; simp [distinctFirstAux]
  | cons x xs ih =>
    intro seen
    have lift : ∀ s' : List α, x ∈ s' →
        (distinctFirstAux s' xs).Pairwise
          (fun a b => (x :: xs).indexOf a < (x :: xs).indexOf b) := by
      intro s' hx
      refine List.Pairwise.imp_of_mem ?_ (ih s')
      intro a b ha hb hab
      have hax : a ≠ x := by
        have := (mem_distinctFirstAux xs s' a).mp ha
        intro hc; subst hc; exact this.2 hx
      have hbx : b ≠ x := by
        have := (mem_distinctFirstAux xs s' b).mp hb
        intro hc; subst hc; exact this.2 hx
      rw [List.indexOf_cons_ne _ (Ne.symm hax), List.indexOf_cons_ne _ (Ne.symm hbx)]
      omega
    rw [distinctFirstAux]
    by_cases hx : x ∈ seen
    · rw [if_pos hx]
      exact lift seen hx
    · rw [if_neg hx]
      refine List.pairwise_cons.mpr ⟨?_, lift (x :: seen) (List.mem_cons_self x seen)⟩
      intro b hb
      have hbx : b ≠ x := by
        have := (mem_distinctFirstAux xs (x :: seen) b).mp hb
        intro hc; subst hc; exact this.2 (List.mem_cons_self b seen)
      rw [List.indexOf_cons_self, List.indexOf_cons_ne _ (Ne.symm hbx)]
      omega

theorem distinctFirst_pairwise_indexOf {α : Type} [DecidableEq α] (l : List α) :
    (distinctFirst l).Pairwise (fun a b => l.indexOf a < l.indexOf b) :=
  distinctFirstAux_pairwise_indexOf l []

/-- Insert an element in front of the first list element `y` with
`le x y`; the building block of a stable insertion sort. -/
def insertStable {α : Type} (le : α → α → Bool) (x : α) : List α → List α
  | [] => [x]
  | y :: ys => if le x y then x :: y :: ys else y :: insertStable le x ys

/-- Stable insertion sort by the boolean comparator `le`: elements that
compare equal keep their input order. -/
def sortStable {α : Type} (le : α → α → Bool) : List α → List α
  | [] => []
  | x :: xs => insertStable le x (sortStable le xs)

theorem insertStable_perm {α : Type} (le : α → α → Bool) (x : α) (l : List α) :
    List.Perm (insertStable le x l) (x :: l) := by
  induction l with
  | nil => simp [insertStable]
  | cons y ys ih =>
    rw [insertStable]
    by_cases h : le x y
    · rw [if_pos h]
    · rw [if_neg h]
      exact (ih.cons y).trans (List.Perm.swap x y ys)

theorem sortStable_perm {α : Type} (le : α → α → Bool) (l : List α) :
    List.Perm (sortStable le l) l := by
  induction l with
  | nil => simp [sortStable]
  | cons x xs ih =>
    rw [sortStable]
    exact (insertStable_perm le x (sortStable le xs)).trans (ih.cons x)

theorem mem_insertStable {α : Type} (le : α → α → Bool) (x a : α) (l : List α) :
    a ∈ insertStable le x l ↔ a = x ∨ a ∈ l := by
  rw [(insertStable_perm le x l).mem_iff]
  simp

/-- Pairwise shape of a stable insertion: if the sorted tail is pairwise
ordered (strictly by the comparator, or tied and ordered by `P`) and the
inserted element is `P`-before everything in it, the result is pairwise
ordered the same way. -/
theorem insertStable_pairwise {α : Type} (le : α → α → Bool) (P : α → α → Prop)
    (letrans : ∀ a b c, le a b = true → le b c = true → le a c = true)
    (x : α) (l : List α)
    (hR : l.Pairwise (fun a b => le b a = false ∨ (le a b = true ∧ le b a = true ∧ P a b)))
    (hP : ∀ y ∈ l, P x y) :
    (insertStable le x l).Pairwise
      (fun a b => le b a = false ∨ (le a b = true ∧ le b a = true ∧ P a b)) := by
  induction l with
  | nil => simp [insertStable]
  | cons y ys ih =>
    rw [insertStable]
    rcases List.pairwise_cons.mp hR with ⟨hy, hys⟩
    by_cases hxy : le x y = true
    · rw [if_pos hxy]
      refine List.pairwise_cons.mpr ⟨?_, hR⟩
      intro z hz
      rcases List.mem_cons.mp hz with rfl | hz'
      · by_cases hyx : le z x = true
        · exact .inr ⟨hxy, hyx, hP z (List.mem_cons_self _ _)⟩
        · exact .inl (Bool.eq_false_iff.mpr hyx)
      · have hyz := hy z hz'
        by_cases hzx : le z x = true
        · rcases hyz with hzy | ⟨hyz1, hzy1, _⟩
          · have : le z y = true := letrans z x y hzx hxy
            rw [this] at hzy
            cases hzy
          · exact .inr ⟨letrans x y z hxy hyz1, hzx,
              hP z (List.mem_cons_of_mem _ hz')⟩
        · exact .inl (Bool.eq_false_iff.mpr hzx)
    · have hxy' : le x y = false := Bool.eq_false_iff.mpr hxy
      rw [if_neg hxy]
      refine List.pairwise_cons.mpr ⟨?_, ?_⟩
      · intro z hz
        rcases (mem_insertStable le x z ys).mp hz with rfl | hz'
        · exact .inl hxy'
        · exact hy z hz'
      · exact ih hys (fun z hz => hP z (List.mem_cons_of_mem _ hz))

/-- A stable insertion sort of a `P`-ordered input list is pairwise
ordered: strictly by the comparator, or tied and still in input
(`P`) order. -/
theorem sortStable_pairwise {α : Type} (le : α → α → Bool) (P : α → α → Prop)
    (letrans : ∀ a b c, le a b = true → le b c = true → le a c = true)
    (l : List α) (hl : l.Pairwise P) :
    (sortStable le l).Pairwise
      (fun a b => le b a = false ∨ (le a b = true ∧ le b a = true ∧ P a b)) := by
  induction l with
  | nil => simp [sortStable]
  | cons x xs ih =>
    rw [sortStable]
    rcases List.pairwise_cons.mp hl with ⟨hx, hxs⟩
    refine insertStable_pairwise le P letrans x _ (ih hxs) ?_
    intro y hy
    exact hx y ((sortStable_perm le xs).mem_iff.mp hy)

/-- Association-list lookup of a key produced by a keyed `map`: whatever
row a key finds carries the value computed from that key. -/
theorem lookup_map_self {β : Type} (f : String → β) (l : List String) (s : String)
    (r : β) (h : (l.map (fun x => (x, f x))).lookup s = some r) : r = f s := by
  induction l with
  | nil => simp [List.lookup] at h
  | cons x xs ih =>
    by_cases hx : s = x
    · subst hx
      simp [List.lookup] at h
      exact h.symm
    · have hbeq : (s == x) = false := by simpa using hx
      rw [List.map_cons, List.lookup, hbeq] at h
      exact ih h

theorem lookup_map_self_of_mem {β : Type} (f : String → β) (l : List String) (s : String)
    (h : s ∈ l) : (l.map (fun x => (x, f x))).lookup s = some (f s) := by
  induction l with
  | nil => simp at h
  | cons x xs ih =>
    by_cases hx : s = x
    · subst hx
      simp [List.lookup]
    · have hbeq : (s == x) = false := by simpa using hx
      rw [List.map_cons, List.lookup, hbeq]
      exact ih ((List.mem_cons.mp h).resolve_left hx)

/-! ### Python string primitives on character lists -/

/-- Python `str.strip()`: remove leading and trailing whitespace. -/
def pyStrip (l : List Char) : List Char :=
  ((l.dropWhile Char.isWhitespace).reverse.dropWhile Char.isWhitespace).reverse

/-- Python `str.lower()` (ASCII case mapping). -/
def pyLower (l : List Char) : List Char := l.map Char.toLower

/-- Python `str.split(',')`. -/
def pySplitComma : List Char → List (List Char)
  | [] => [[]]
  | c :: rest =>
    if c = ',' then [] :: pySplitComma rest
    else
      match pySplitComma rest with
      | [] => [[c]]
      | t :: ts => (c :: t) :: ts

/-- Python `pat in l` on strings: substring containment. -/
def containsSub : List Char → List Char → Bool
  | [], pat => pat.isEmpty
  | l@(_ :: rest), pat => pat.isPrefixOf l || containsSub rest pat

theorem containsSub_iff (l pat : List Char) :
    containsSub l pat = true ↔ pat <:+: l := by
  induction l with
  | nil =>
    simp only [containsSub, List.isEmpty_iff]
    constructor
    · rintro rfl; exact List.infix_rfl
    · intro h; exact List.eq_nil_of_infix_nil h
  | cons c rest ih =>
    rw [containsSub, Bool.or_eq_true, List.isPrefixOf_iff_prefix, ih,
      List.infix_cons_iff]

theorem pyStrip_within (l : List Char) : pyStrip l <:+: l := by
  have h1 : l.dropWhile Char.isWhitespace <:+ l := List.dropWhile_suffix _
  have h2 : pyStrip l <+: l.dropWhile Char.isWhitespace := by
    have h := List.dropWhile_suffix
      (l := (l.dropWhile Char.isWhitespace).reverse) Char.isWhitespace
    have h3 := List.reverse_prefix.mpr (by simpa using h)
    simpa [pyStrip] using h3
  exact h2.isInfix.trans h1.isInfix

/-! ### `pandas.Series.value_counts` -/

/-- Model of `pandas.Series.value_counts` on data without missing
values: the table of (value, occurrence count) pairs keyed in
first-occurrence order, then stably sorted by count descending, so that
tied values stay in first-occurrence order (pandas sorts the counts with
a stable sort). -/
def value_counts {α : Type} [DecidableEq α] (l : List α) : List (α × Nat) :=
  sortStable (fun a b => decide (b.2 ≤ a.2))
    ((distinctFirst l).map (fun v => (v, l.count v)))

theorem mem_value_counts {α : Type} [DecidableEq α] (l : List α) (e : α × Nat)
    (h : e ∈ value_counts l) : e.1 ∈ l ∧ e.2 = l.count e.1 := by
  have h1 : e ∈ (distinctFirst l).map (fun v => (v, l.count v)) :=
    (sortStable_perm _ _).mem_iff.mp h
  rcases List.mem_map.mp h1 with ⟨v, hv, rfl⟩
  exact ⟨(mem_distinctFirst l v).mp hv, rfl⟩

theorem value_counts_complete {α : Type} [DecidableEq α] (l : List α) (v : α)
    (h : v ∈ l) : (v, l.count v) ∈ value_counts l := by
  refine (sortStable_perm _ _).mem_iff.mpr ?_
  exact List.mem_map.mpr ⟨v, (mem_distinctFirst l v).mpr h, rfl⟩

/-- The `value_counts` table is sorted by count descending, ties broken
by the index of the value's first occurrence in the input. -/
theorem value_counts_pairwise {α : Type} [DecidableEq α] (l : List α) :
    (value_counts l).Pairwise
      (fun a b => b.2 < a.2 ∨ (a.2 = b.2 ∧ l.indexOf a.1 < l.indexOf b.1)) := by
  have htab : ((distinctFirst l).map (fun v => (v, l.count v))).Pairwise
      (fun a b => l.indexOf a.1 < l.indexOf b.1) := by
    rw [List.pairwise_map]
    exact distinctFirst_pairwise_indexOf l
  have hs := sortStable_pairwise (fun a b : α × Nat => decide (b.2 ≤ a.2))
    (fun a b => l.indexOf a.1 < l.indexOf b.1)
    (fun a b c hab hbc => by
      simp only [decide_eq_true_eq] at hab hbc ⊢
      omega)
    _ htab
  refine List.Pairwise.imp ?_ hs
  intro a b hab
  rcases hab with hlt | ⟨h1, h2, h3⟩
  · left
    simpa [Nat.lt_iff_add_one_le] using
      Nat.lt_of_not_le (by simpa using hlt)
  · right
    simp only [decide_eq_true_eq] at h1 h2
    exact ⟨Nat.le_antisymm h2 h1, h3⟩

/-! ### Skill tokenizer and exclusion filter (`skill_demand_evolution.py`, `extract_skills`) -/

/-- The `exclude_terms` list of `skill_demand_evolution.py`. -/
def exclude_terms : List String :=
  ["inc.", "labs", "corp", "company", "university", "research", "technologies",
   "manager", "director"]

/-- One skills cell: split on commas, then strip and lowercase each
token (`[skill.strip().lower() for skill in skills.split(',')]`). -/
def tokenizeSkills (skills : String) : List (List Char) :=
  (pySplitComma skills.toList).map (fun t => pyLower (pyStrip t))

/-- The token filter of `extract_skills`: keep a token iff no configured
exclusion term occurs in it as a substring. -/
def keepToken (terms : List String) (t : List Char) : Bool :=
  !(terms.any (fun e => containsSub t e.toList))

/-- `extract_skills` parameterised by the exclusion list: drop missing
cells, tokenize every cell, filter each cell's tokens, collect all
tokens, and count them with `value_counts`. -/
def extract_skills_with (terms : List String) (col : List (Option String)) :
    List (String × Nat) :=
  value_counts (((col.filterMap id).flatMap
    (fun s => (tokenizeSkills s).filter (keepToken terms))).map (fun t => String.mk t))

/-- `extract_skills` as in the source, with its module-level
`exclude_terms`. -/
def extract_skills (col : List (Option String)) : List (String × Nat) :=
  extract_skills_with exclude_terms col

theorem keepToken_iff (terms : List String) (t : List Char) :
    keepToken terms t = true ↔ ¬ ∃ e ∈ terms, e.toList <:+: t := by
  rw [keepToken, Bool.not_eq_true', List.any_eq_false]
  constructor
  · rintro h ⟨e, he, hinf⟩
    exact h e he ((containsSub_iff t e.toList).mpr hinf)
  · intro h e he hc
    exact h ⟨e, he, (containsSub_iff t e.toList).mp hc⟩

/-- Looked-up count of a skill in a frequency table, defaulting to `0`
when absent — the effect of `.fillna(0)` after the two `value_counts`
series are merged into one DataFrame. -/
def countOf (t : List (String × Nat)) (s : String) : Nat := (t.lookup s).getD 0

/-- Any entry of the skill-frequency table names a token of the
filtered token stream, carries that token's occurrence count, and the
token passed the exclusion filter. -/
theorem extract_skills_with_entry (terms : List String) (col : List (Option String))
    (k : String) (c : Nat) (h : (k, c) ∈ extract_skills_with terms col) :
    k ∈ ((col.filterMap id).flatMap
      (fun s => (tokenizeSkills s).filter (keepToken terms))).map (fun t => String.mk t) ∧
    c = (((col.filterMap id).flatMap
      (fun s => (tokenizeSkills s).filter (keepToken terms))).map
        (fun t => String.mk t)).count k ∧
    keepToken terms k.toList = true := by
  have h1 := mem_value_counts _ _ h
  refine ⟨h1.1, h1.2, ?_⟩
  rcases List.mem_map.mp h1.1 with ⟨t, ht, rfl⟩
  rcases List.mem_flatMap.mp ht with ⟨s, _, hts⟩
  exact (List.mem_filter.mp hts).2

/-- C3: tokens are the comma-split, stripped, lowercased pieces of each
cell, and a token is discarded exactly when some configured exclusion
term occurs in it as a substring; table entries count exactly the kept
tokens.  With exclusion list `["university"]`, "stanford university" is
discarded while "python" is kept, and `["Python, SQL", "python, excel"]`
counts to python:2, sql:1, excel:1. -/
theorem C3_tokenizer_exclusion_filter (terms : List String) (col : List (Option String))
    (k : String) (c : Nat) (h : (k, c) ∈ extract_skills_with terms col) :
    (∀ t : List Char, keepToken terms t = true ↔ ¬ ∃ e ∈ terms, e.toList <:+: t) ∧
    keepToken terms k.toList = true ∧
    c = (((col.filterMap id).flatMap
      (fun s => (tokenizeSkills s).filter (keepToken terms))).map
        (fun t => String.mk t)).count k ∧
    tokenizeSkills "Python, SQL" = ["python".toList, "sql".toList] ∧
    keepToken ["university"] "stanford university".toList = false ∧
    keepToken ["university"] "python".toList = true ∧
    countOf (extract_skills [some "Python, SQL", some "python, excel"]) "python" = 2 ∧
    countOf (extract_skills [some "Python, SQL", some "python, excel"]) "sql" = 1 ∧
    countOf (extract_skills [some "Python, SQL", some "python, excel"]) "excel" = 1 := by
  have h1 := extract_skills_with_entry terms col k c h
  exact ⟨keepToken_iff terms, h1.2.2, h1.2.1, by decide, by decide, by decide,
    by decide, by decide, by decide⟩

/-- Witness for C3 at a concrete column. -/
theorem C3_witness :
    keepToken exclude_terms ("python" : String).toList = true :=
  (C3_tokenizer_exclusion_filter exclude_terms [some "python"] "python" 1
    (by decide)).2.1

/-- C8 counterexample: with input cell "python,,sql" the empty string is
a key of the produced table (the empty token between the two commas
survives the exclusion filter), so not every key is non-empty. -/
theorem C8_counterexample_empty_key :
    ("", 1) ∈ extract_skills [some "python,,sql"] ∧ ("" : String).length = 0 :=
  ⟨by decide, rfl⟩

/-- C8 amended: every key of the table is a token that survived the
exclusion filter — it contains no excluded term as a substring, but may
be the empty string (e.g. from consecutive commas) — and every count is
a positive integer. -/
theorem C8_keys_filtered_counts_positive (col : List (Option String))
    (k : String) (c : Nat) (h : (k, c) ∈ extract_skills col) :
    1 ≤ c ∧ keepToken exclude_terms k.toList = true ∧
    ∀ e ∈ exclude_terms, ¬ (e.toList <:+: k.toList) := by
  have h1 := extract_skills_with_entry exclude_terms col k c h
  refine ⟨?_, h1.2.2, ?_⟩
  · rw [h1.2.1]
    exact List.count_pos_iff.mpr h1.1
  · intro e he hinf
    exact (keepToken_iff exclude_terms k.toList).mp h1.2.2 ⟨e, he, hinf⟩

/-- Witness for C8's amended statement at a concrete column. -/
theorem C8_witness :
    1 ≤ 1 ∧ keepToken exclude_terms ("python" : String).toList = true ∧
    ∀ e ∈ exclude_terms, ¬ (e.toList <:+: ("python" : String).toList) :=
  C8_keys_filtered_counts_positive [some "python"] "python" 1 (by decide)

/-! ### Skill-demand trend computer (`skill_demand_evolution.py`, steps 4-5) -/

/-- `((B - A) / A.replace(0, 1)) * 100`, the `% Change` column formula
of `skill_demand_evolution.py` in exact rational arithmetic. -/
def percentChange (a b : Nat) : ℚ :=
  ((b : ℚ) - (a : ℚ)) / (if a = 0 then 1 else (a : ℚ)) * 100

/-- One row of the merged trend DataFrame: historical count, recent
count, percent change. -/
structure TrendRow where
  hist : ℚ
  recent : ℚ
  pctChange : ℚ
deriving DecidableEq

/-- The merged `skill_trends` DataFrame: one row per skill in the union
of the two tables' vocabularies (missing counts filled with 0) together
with the `% Change` column.  pandas emits the union index in sorted
order; we keep first-occurrence order, which none of the stated
properties depend on (rows are addressed by key, never by position). -/
def skill_trends (linkedin indeed : List (String × Nat)) : List (String × TrendRow) :=
  (distinctFirst (linkedin.map Prod.fst ++ indeed.map Prod.fst)).map
    (fun s => (s, { hist := (countOf linkedin s : ℚ), recent := (countOf indeed s : ℚ),
                    pctChange := percentChange (countOf linkedin s) (countOf indeed s) }))

theorem skill_trends_python_example :
    (skill_trends [] [("python", 5)]).lookup "python" =
      some { hist := 0, recent := 5, pctChange := 500 } := by
  norm_num [skill_trends, distinctFirst, distinctFirstAux, countOf, List.lookup,
    percentChange]

theorem skill_trends_sql_example :
    (skill_trends [("sql", 10)] [("sql", 10)]).lookup "sql" =
      some { hist := 10, recent := 10, pctChange := 0 } := by
  norm_num [skill_trends, distinctFirst, distinctFirstAux, countOf, List.lookup,
    percentChange]

/-- C1: every skill of the union vocabulary gets a trend row, and any
trend row a skill finds carries its two 0-defaulted counts and the
percent change `(B - A) / (A == 0 ? 1 : A) * 100`; in particular
historical 0 / recent 5 yields 500 and counts 10/10 yield 0. -/
theorem C1_trend_percent_change (li ind : List (String × Nat)) (s : String) (r : TrendRow)
    (h : (skill_trends li ind).lookup s = some r) :
    r.hist = (countOf li s : ℚ) ∧ r.recent = (countOf ind s : ℚ) ∧
    r.pctChange = percentChange (countOf li s) (countOf ind s) ∧
    (∀ t, t ∈ li.map Prod.fst ++ ind.map Prod.fst →
      (skill_trends li ind).lookup t =
        some { hist := (countOf li t : ℚ), recent := (countOf ind t : ℚ),
               pctChange := percentChange (countOf li t) (countOf ind t) }) ∧
    (skill_trends [] [("python", 5)]).lookup "python" =
      some { hist := 0, recent := 5, pctChange := 500 } ∧
    (skill_trends [("sql", 10)] [("sql", 10)]).lookup "sql" =
      some { hist := 10, recent := 10, pctChange := 0 } := by
  have hr := lookup_map_self _ _ _ _ h
  subst hr
  refine ⟨rfl, rfl, rfl, ?_, skill_trends_python_example, skill_trends_sql_example⟩
  intro t ht
  exact lookup_map_self_of_mem _ _ _ ((mem_distinctFirst _ _).mpr ht)

/-- Witness for C1 at a concrete table pair. -/
theorem C1_witness :
    ({ hist := 0, recent := 5, pctChange := 500 } : TrendRow).hist =
      (countOf [] "python" : ℚ) :=
  (C1_trend_percent_change [] [("python", 5)] "python"
    { hist := 0, recent := 5, pctChange := 500 } skill_trends_python_example).1

/-! ### Cross-dataset combiner (`most_common_job_titles.py`, `top_hiring_companies.py`) -/

/-- `pd.concat(series).value_counts().head(n)`: missing values are
dropped by `value_counts`, the rest is counted, and the top `n` rows are
kept. -/
def topCounts (n : Nat) (series : List (Option String)) : List (String × Nat) :=
  (value_counts (series.filterMap id)).take n

/-- `top_job_titles` of `most_common_job_titles.py`: titles of the three
sources concatenated in order, counted, top 10. -/
def top_job_titles (indeed linkedinHistorical linkedinNoSkills : List (Option String)) :
    List (String × Nat) :=
  topCounts 10 (indeed ++ linkedinHistorical ++ linkedinNoSkills)

/-- `top_companies` of `top_hiring_companies.py`: company values of the
three sources concatenated in order, counted, top 10. -/
def top_companies (indeed linkedinHistorical linkedinNoSkills : List (Option String)) :
    List (String × Nat) :=
  topCounts 10 (indeed ++ linkedinHistorical ++ linkedinNoSkills)

/-- Core facts about `topCounts`: every listed entry is a value of the
concatenation with its exact occurrence count; entries are in descending
count order with ties in first-seen order; at most `n` entries are
listed; and any value left out has a count no larger than any listed
count. -/
theorem topCounts_spec (n : Nat) (series : List (Option String)) :
    (∀ e ∈ topCounts n series,
      e.1 ∈ series.filterMap id ∧ e.2 = (series.filterMap id).count e.1) ∧
    (topCounts n series).Pairwise (fun a b => b.2 < a.2 ∨
      (a.2 = b.2 ∧ (series.filterMap id).indexOf a.1 < (series.filterMap id).indexOf b.1)) ∧
    (topCounts n series).length ≤ n ∧
    (∀ v ∈ series.filterMap id, v ∉ (topCounts n series).map Prod.fst →
      ∀ e ∈ topCounts n series, (series.filterMap id).count v ≤ e.2) := by
  refine ⟨?_, ?_, ?_, ?_⟩
  · intro e he
    exact mem_value_counts _ _ (List.mem_of_mem_take he)
  · exact (value_counts_pairwise _).sublist (List.take_sublist _ _)
  · exact List.length_take_le _ _
  · intro v hv hvout e he
    have hventry : (v, (series.filterMap id).count v) ∈ value_counts (series.filterMap id) :=
      value_counts_complete _ _ hv
    rw [← List.take_append_drop n (value_counts (series.filterMap id))] at hventry
    rcases List.mem_append.mp hventry with hin | hdrop
    · exact absurd (List.mem_map_of_mem Prod.fst hin) hvout
    · have hrel := List.Pairwise.rel_of_mem_take_of_mem_drop
        (value_counts_pairwise (series.filterMap id)) he hdrop
      rcases hrel with hlt | ⟨heq, _⟩
      · exact Nat.le_of_lt hlt
      · exact Nat.le_of_eq heq.symm

/-- C5: the combiner concatenates the per-source series in order, counts
each distinct value, and returns the top 10 in descending count order
with ties in first-seen order across the concatenation; any value not
returned occurs no more often than every returned one.  `top_companies`
is the same computation. -/
theorem C5_cross_dataset_top (s1 s2 s3 : List (Option String)) :
    (∀ e ∈ top_job_titles s1 s2 s3,
      e.1 ∈ (s1 ++ s2 ++ s3).filterMap id ∧
      e.2 = ((s1 ++ s2 ++ s3).filterMap id).count e.1) ∧
    (top_job_titles s1 s2 s3).Pairwise (fun a b => b.2 < a.2 ∨
      (a.2 = b.2 ∧ ((s1 ++ s2 ++ s3).filterMap id).indexOf a.1 <
        ((s1 ++ s2 ++ s3).filterMap id).indexOf b.1)) ∧
    (top_job_titles s1 s2 s3).length ≤ 10 ∧
    (∀ v ∈ (s1 ++ s2 ++ s3).filterMap id,
      v ∉ (top_job_titles s1 s2 s3).map Prod.fst →
      ∀ e ∈ top_job_titles s1 s2 s3,
        ((s1 ++ s2 ++ s3).filterMap id).count v ≤ e.2) ∧
    top_companies s1 s2 s3 = top_job_titles s1 s2 s3 := by
  have h := topCounts_spec 10 (s1 ++ s2 ++ s3)
  exact ⟨h.1, h.2.1, h.2.2.1, h.2.2.2, rfl⟩

/-- Witness for C5 at concrete series. -/
theorem C5_witness :
    (("x", 2) : String × Nat).1 ∈
        ([some "x", none, some "y"] ++ [some "x"] ++ ([] : List (Option String))).filterMap id ∧
      (("x", 2) : String × Nat).2 =
        (([some "x", none, some "y"] ++ [some "x"] ++ ([] : List (Option String))).filterMap id).count
          (("x", 2) : String × Nat).1 :=
  (C5_cross_dataset_top [some "x", none, some "y"] [some "x"] []).1 ("x", 2) (by decide)

/-! ### Location filter (`top_hiring_locations.py`) -/

/-- The `country_names` exclusion list of `top_hiring_locations.py`. -/
def country_names : List String :=
  ["united states", "canada", "united kingdom", "australia", "germany", "france",
   "india", "china"]

/-- `all_locations[~all_locations.str.lower().isin(country_names)]`:
keep the locations whose lowercasing is not a listed country name. -/
def filtered_locations (locs : List String) : List String :=
  locs.filter (fun s => decide (pyLower s.toList ∉ country_names.map String.toList))

/-- C6: the filter removes exactly the values matching a configured
country name case-insensitively (exact whole-value comparison), keeps
everything else in order, and
`["United States", "Austin", "united states"]` filters to `["Austin"]`. -/
theorem C6_location_filter (locs : List String) :
    (∀ s, s ∈ filtered_locations locs ↔
      s ∈ locs ∧ ¬ ∃ c ∈ country_names, pyLower s.toList = pyLower c.toList) ∧
    (filtered_locations locs).Sublist locs ∧
    filtered_locations ["United States", "Austin", "united states"] = ["Austin"] := by
  have hlow : ∀ c ∈ country_names, pyLower c.toList = c.toList := by decide
  refine ⟨?_, List.filter_sublist _, by decide⟩
  intro s
  rw [filtered_locations, List.mem_filter, decide_eq_true_eq]
  constructor
  · rintro ⟨hmem, hnot⟩
    refine ⟨hmem, ?_⟩
    rintro ⟨c, hc, heq⟩
    exact hnot (List.mem_map.mpr ⟨c, hc, by rw [hlow c hc] at heq; exact heq.symm⟩)
  · rintro ⟨hmem, hnot⟩
    refine ⟨hmem, fun hc => ?_⟩
    rcases List.mem_map.mp hc with ⟨c, hcmem, hceq⟩
    exact hnot ⟨c, hcmem, by rw [hlow c hcmem, hceq]⟩

/-! ### Indeed cleaning pipeline (`clean_skills_plot.py`, steps 2 and the groupby) -/

/-- One raw row of `indeed_webscrape.csv` (`NaN` cells are `none`).
`href` is the `job_title-href` column. -/
structure IndeedRow where
  href : Option String
  job_title : Option String
  location : Option String
  company : Option String
  skills : Option String
deriving DecidableEq

/-- One row of the cleaned, grouped output. -/
structure IndeedCleanRow where
  href : String
  job_title : Option String
  location : Option String
  company : Option String
  skills : String
deriving DecidableEq

/-- The skills cell after `fillna('')`. -/
def skillsFilled (r : IndeedRow) : String := r.skills.getD ""

/-- `indeed_data['skills'] = indeed_data['skills'].fillna('')`. -/
def indeedFillNa (rows : List IndeedRow) : List IndeedRow :=
  rows.map (fun r => { r with skills := some (skillsFilled r) })

/-- `indeed_data = indeed_data[indeed_data['skills'].str.strip() != '']`
after the `fillna`: drop the rows whose skills cell is blank. -/
def indeedPreprocessed (rows : List IndeedRow) : List IndeedRow :=
  (indeedFillNa rows).filter (fun r => decide (pyStrip (skillsFilled r).toList ≠ []))

/-- pandas `GroupBy.first`: the first non-null value of the column in
the group, null if there is none. -/
def firstSome (l : List (Option String)) : Option String := (l.filterMap id).head?

/-- Python `', '.join(strings)`. -/
def joinCommaSpace : List String → String
  | [] => ""
  | [s] => s
  | s :: rest => s ++ ", " ++ joinCommaSpace rest

/-- The `.agg` dictionary applied to one `job_title-href` group:
`'first'` for the scalar columns and
`', '.join(x.dropna().unique())` for skills. -/
def aggGroup (k : String) (g : List IndeedRow) : IndeedCleanRow :=
  { href := k,
    job_title := firstSome (g.map (fun r => r.job_title)),
    location := firstSome (g.map (fun r => r.location)),
    company := firstSome (g.map (fun r => r.company)),
    skills := joinCommaSpace (distinctFirst (g.filterMap (fun r => r.skills))) }

/-- `indeed_data.groupby(['job_title-href'], as_index=False).agg(...)`:
rows with a missing key are dropped by `groupby`, the remaining rows are
grouped by key and aggregated.  pandas emits the groups sorted by key;
we keep first-occurrence key order, on which none of the verified
properties depend (records are addressed by key, never by position). -/
def indeed_data_cleaned (rows : List IndeedRow) : List IndeedCleanRow :=
  (distinctFirst ((indeedPreprocessed rows).filterMap (fun r => r.href))).map
    (fun k => aggGroup k
      ((indeedPreprocessed rows).filter (fun r => decide (r.href = some k))))

/-- The comma-separated pieces of a rendered skills cell, trimmed. -/
def tokensOfCell (s : String) : List (List Char) :=
  (pySplitComma s.toList).map pyStrip

theorem pySplitComma_ne_nil (l : List Char) : pySplitComma l ≠ [] := by
  cases l with
  | nil => simp [pySplitComma]
  | cons c rest =>
    rw [pySplitComma]
    by_cases hc : c = ','
    · simp [hc]
    · rw [if_neg hc]
      cases pySplitComma rest with
      | nil => simp
      | cons t ts => simp

theorem pySplitComma_append (a b : List Char) :
    pySplitComma (a ++ ',' :: b) = pySplitComma a ++ pySplitComma b := by
  induction a with
  | nil => simp [pySplitComma]
  | cons c a' ih =>
    by_cases hc : c = ','
    · subst hc
      rw [List.cons_append, pySplitComma, if_pos rfl, ih]
      rw [pySplitComma, if_pos rfl]
      simp
    · rw [List.cons_append, pySplitComma, if_neg hc, ih]
      rw [pySplitComma, if_neg hc]
      rcases hsp : pySplitComma a' with _ | ⟨t, ts⟩
      · exact absurd hsp (pySplitComma_ne_nil a')
      · simp

theorem pyStrip_cons_ws (c : Char) (l : List Char) (hc : Char.isWhitespace c = true) :
    pyStrip (c :: l) = pyStrip l := by
  rw [pyStrip, pyStrip, List.dropWhile_cons_of_pos hc]

/-- Tokens of a `', '`-join: the tokens of the joined pieces, in order
(the `', '` separators dissolve into the comma split and the trim). -/
theorem tokensOfCell_joinCommaSpace (L : List String) (hL : L ≠ []) :
    tokensOfCell (joinCommaSpace L) = L.flatMap (fun s => tokensOfCell s) := by
  induction L with
  | nil => exact absurd rfl hL
  | cons s L' ih =>
    cases L' with
    | nil => simp [joinCommaSpace]
    | cons s' L'' =>
      have hjoin : joinCommaSpace (s :: s' :: L'') = s ++ ", " ++ joinCommaSpace (s' :: L'') :=
        rfl
      have hdata : (s ++ ", " ++ joinCommaSpace (s' :: L'')).toList =
          s.toList ++ ',' :: ' ' :: (joinCommaSpace (s' :: L'')).toList := by
        show (s ++ ", " ++ joinCommaSpace (s' :: L'')).data = _
        rw [String.data_append, String.data_append, List.append_assoc]
        rfl
      rw [hjoin, tokensOfCell, hdata, pySplitComma_append, List.map_append]
      have hsp : pySplitComma (' ' :: (joinCommaSpace (s' :: L'')).toList) =
          match pySplitComma (joinCommaSpace (s' :: L'')).toList with
          | [] => [[' ']]
          | t :: ts => (' ' :: t) :: ts := by
        rw [pySplitComma, if_neg (by decide)]
      rcases hsp2 : pySplitComma (joinCommaSpace (s' :: L'')).toList with _ | ⟨t, ts⟩
      · exact absurd hsp2 (pySplitComma_ne_nil _)
      · rw [hsp, hsp2]
        have : (((' ' :: t) :: ts).map pyStrip) = (t :: ts).map pyStrip := by
          simp [pyStrip_cons_ws ' ' t (by decide)]
        rw [this, ← hsp2]
        have ihr := ih (by simp)
        rw [tokensOfCell] at ihr
        rw [ihr]
        simp [tokensOfCell]

theorem joinCommaSpace_ne_empty (L : List String) (hL : L ≠ [])
    (hmem : ∀ s ∈ L, s ≠ "") : joinCommaSpace L ≠ "" := by
  cases L with
  | nil => exact absurd rfl hL
  | cons s L' =>
    cases L' with
    | nil =>
      simpa [joinCommaSpace] using hmem s (by simp)
    | cons s' L'' =>
      show s ++ ", " ++ joinCommaSpace (s' :: L'') ≠ ""
      intro hc
      have : (s ++ ", " ++ joinCommaSpace (s' :: L'')).data = ("" : String).data :=
        congrArg String.data hc
      rw [String.data_append, String.data_append] at this
      simp at this

/-- Every preprocessed row carries a present, non-blank skills cell. -/
theorem mem_indeedPreprocessed (rows : List IndeedRow) (r : IndeedRow)
    (h : r ∈ indeedPreprocessed rows) :
    ∃ s, r.skills = some s ∧ pyStrip s.toList ≠ [] := by
  rcases List.mem_filter.mp h with ⟨hmem, hcond⟩
  rcases List.mem_map.mp hmem with ⟨r0, _, rfl⟩
  refine ⟨skillsFilled r0, rfl, ?_⟩
  have := of_decide_eq_true hcond
  simpa [skillsFilled] using this

/-- Every record of the cleaned output is the aggregation of the
non-empty group of preprocessed rows sharing its key. -/
theorem indeed_cleaned_structure (rows : List IndeedRow) (rec : IndeedCleanRow)
    (h : rec ∈ indeed_data_cleaned rows) :
    ∃ g, g = (indeedPreprocessed rows).filter
        (fun r => decide (r.href = some rec.href)) ∧
      g ≠ [] ∧ rec = aggGroup rec.href g := by
  rcases List.mem_map.mp h with ⟨k, hk, rfl⟩
  have hrech : (aggGroup k ((indeedPreprocessed rows).filter
      (fun r => decide (r.href = some k)))).href = k := rfl
  rw [hrech]
  refine ⟨_, rfl, ?_, rfl⟩
  have hk2 := (mem_distinctFirst _ _).mp hk
  rcases List.mem_filterMap.mp hk2 with ⟨r, hr, hrk⟩
  exact List.ne_nil_of_mem (List.mem_filter.mpr ⟨hr, by simp [hrk]⟩)

/-- Sample raw rows: same key, same scalar columns, overlapping skill
lists. -/
def sampleRowAB : IndeedRow :=
  { href := some "h", job_title := some "t", location := none, company := none,
    skills := some "a, b" }

def sampleRowBC : IndeedRow :=
  { href := some "h", job_title := some "t", location := none, company := none,
    skills := some "b, c" }

def sampleCleanABBC : IndeedCleanRow :=
  { href := "h", job_title := some "t", location := none, company := none,
    skills := "a, b, b, c" }

def sampleCleanAB : IndeedCleanRow :=
  { href := "h", job_title := some "t", location := none, company := none,
    skills := "a, b" }

/-- C2 counterexample: two rows sharing key "h" whose skill lists are
"a, b" and "b, c" merge into a record with skills "a, b, b, c" — the
skills-string union at whole-cell level — whose token list contains "b"
twice and is not the de-duplicated union of the two token sets. -/
theorem C2_counterexample_token_union :
    indeed_data_cleaned [sampleRowAB, sampleRowBC] = [sampleCleanABBC] ∧
    tokensOfCell "a, b, b, c" = ["a".toList, "b".toList, "b".toList, "c".toList] ∧
    ¬ (tokensOfCell "a, b, b, c").Nodup ∧
    distinctFirst (tokensOfCell "a, b" ++ tokensOfCell "b, c") =
      ["a".toList, "b".toList, "c".toList] ∧
    tokensOfCell "a, b, b, c" ≠
      distinctFirst (tokensOfCell "a, b" ++ tokensOfCell "b, c") := by
  refine ⟨by decide, by decide, by decide, by decide, by decide⟩

/-- C2 amended: rows sharing a key merge into one record whose scalar
fields are the first non-null occurrence in the group and whose skills
cell is the `', '`-join of the order-preserving de-duplication of the
group's whole skills strings (not of the individual skill tokens); at
token-set level the merged cell holds exactly the union of the group's
tokens, though tokens shared between distinct strings may repeat. -/
theorem C2_key_group_merge (rows : List IndeedRow) (rec : IndeedCleanRow)
    (h : rec ∈ indeed_data_cleaned rows) :
    ∃ g, g = (indeedPreprocessed rows).filter
        (fun r => decide (r.href = some rec.href)) ∧ g ≠ [] ∧
      rec.job_title = firstSome (g.map (fun r => r.job_title)) ∧
      rec.location = firstSome (g.map (fun r => r.location)) ∧
      rec.company = firstSome (g.map (fun r => r.company)) ∧
      rec.skills = joinCommaSpace (distinctFirst (g.filterMap (fun r => r.skills))) ∧
      ∀ t, t ∈ tokensOfCell rec.skills ↔
        ∃ r ∈ g, ∃ s, r.skills = some s ∧ t ∈ tokensOfCell s := by
  rcases indeed_cleaned_structure rows rec h with ⟨g, hg, hgne, hrec⟩
  have hstrs : g.filterMap (fun r => r.skills) ≠ [] := by
    rcases List.exists_mem_of_ne_nil g hgne with ⟨r, hr⟩
    have hrpre : r ∈ indeedPreprocessed rows := by
      rw [hg] at hr
      exact (List.mem_filter.mp hr).1
    rcases mem_indeedPreprocessed rows r hrpre with ⟨s, hs, _⟩
    exact List.ne_nil_of_mem (List.mem_filterMap.mpr ⟨r, hr, hs⟩)
  have hdne : distinctFirst (g.filterMap (fun r => r.skills)) ≠ [] := by
    rcases List.exists_mem_of_ne_nil _ hstrs with ⟨s, hs⟩
    exact List.ne_nil_of_mem ((mem_distinctFirst _ s).mpr hs)
  refine ⟨g, hg, hgne, ?_, ?_, ?_, ?_, ?_⟩
  · rw [hrec]; rfl
  · rw [hrec]; rfl
  · rw [hrec]; rfl
  · rw [hrec]; rfl
  · intro t
    have hsk : rec.skills =
        joinCommaSpace (distinctFirst (g.filterMap (fun r => r.skills))) := by
      rw [hrec]; rfl
    rw [hsk, tokensOfCell_joinCommaSpace _ hdne]
    rw [List.mem_flatMap]
    constructor
    · rintro ⟨s, hs, hts⟩
      have hs2 := (mem_distinctFirst _ s).mp hs
      rcases List.mem_filterMap.mp hs2 with ⟨r, hr, hrs⟩
      exact ⟨r, hr, s, hrs, hts⟩
    · rintro ⟨r, hr, s, hrs, hts⟩
      exact ⟨s, (mem_distinctFirst _ s).mpr
        (List.mem_filterMap.mpr ⟨r, hr, hrs⟩), hts⟩

/-- Witness for C2's amended statement at a concrete row list. -/
theorem C2_witness :
    ∃ g, g = (indeedPreprocessed [sampleRowAB]).filter
        (fun r => decide (r.href = some sampleCleanAB.href)) ∧ g ≠ [] ∧
      sampleCleanAB.job_title = firstSome (g.map (fun r => r.job_title)) ∧
      sampleCleanAB.location = firstSome (g.map (fun r => r.location)) ∧
      sampleCleanAB.company = firstSome (g.map (fun r => r.company)) ∧
      sampleCleanAB.skills =
        joinCommaSpace (distinctFirst (g.filterMap (fun r => r.skills))) ∧
      ∀ t, t ∈ tokensOfCell sampleCleanAB.skills ↔
        ∃ r ∈ g, ∃ s, r.skills = some s ∧ t ∈ tokensOfCell s :=
  C2_key_group_merge [sampleRowAB] sampleCleanAB (by decide)

/-- C10: every row whose skills cell is missing or blank is dropped
before the key grouping, so every cleaned record has a non-empty skills
cell. -/
theorem C10_cleaned_skills_nonempty (rows : List IndeedRow) (rec : IndeedCleanRow)
    (h : rec ∈ indeed_data_cleaned rows) : rec.skills ≠ "" := by
  rcases indeed_cleaned_structure rows rec h with ⟨g, hg, hgne, hrec⟩
  have hstrs : ∀ s ∈ g.filterMap (fun r => r.skills), s ≠ "" := by
    intro s hs
    rcases List.mem_filterMap.mp hs with ⟨r, hr, hrs⟩
    have hrpre : r ∈ indeedPreprocessed rows := by
      rw [hg] at hr
      exact (List.mem_filter.mp hr).1
    rcases mem_indeedPreprocessed rows r hrpre with ⟨s', hs', hne⟩
    rw [hrs] at hs'
    cases Option.some_injective _ hs'
    intro hc
    subst hc
    exact hne rfl
  have hstrne : g.filterMap (fun r => r.skills) ≠ [] := by
    rcases List.exists_mem_of_ne_nil g hgne with ⟨r, hr⟩
    have hrpre : r ∈ indeedPreprocessed rows := by
      rw [hg] at hr
      exact (List.mem_filter.mp hr).1
    rcases mem_indeedPreprocessed rows r hrpre with ⟨s, hs, _⟩
    exact List.ne_nil_of_mem (List.mem_filterMap.mpr ⟨r, hr, hs⟩)
  have hdne : distinctFirst (g.filterMap (fun r => r.skills)) ≠ [] := by
    rcases List.exists_mem_of_ne_nil _ hstrne with ⟨s, hs⟩
    exact List.ne_nil_of_mem ((mem_distinctFirst _ s).mpr hs)
  have hsk : rec.skills =
      joinCommaSpace (distinctFirst (g.filterMap (fun r => r.skills))) := by
    rw [hrec]; rfl
  rw [hsk]
  refine joinCommaSpace_ne_empty _ hdne ?_
  intro s hs
  exact hstrs s ((mem_distinctFirst _ s).mp hs)

/-- Witness for C10 at a concrete row list. -/
theorem C10_witness : sampleCleanAB.skills ≠ "" :=
  C10_cleaned_skills_nonempty [sampleRowAB] sampleCleanAB (by decide)

/-! ### Field extractor (`clean_linkedin.py`, `extract_date`) -/

/-- A parsed JSON document. -/
inductive Json where
  | null
  | bool (b : Bool)
  | num (n : Int)
  | str (s : String)
  | arr (elems : List Json)
  | obj (fields : List (String × Json))

/-- The outcome of the `json.loads(json_str)` library call on a cell:
`decodeError` for a string that is not valid JSON
(`json.JSONDecodeError`), `typeError` for a non-string cell such as a
`NaN` float (`TypeError`), `ok` for a successfully parsed document. -/
inductive JsonLoadResult where
  | decodeError
  | typeError
  | ok (j : Json)

/-- The uncaught Python exception relevant here. -/
inductive PyExc where
  | attributeError
deriving DecidableEq

/-- `extract_date`: the `try` block parses and then evaluates
`data.get("datePosted", None)`.  The `except` clause catches exactly
`(json.JSONDecodeError, TypeError)` and returns `None`.  On a dict,
`.get` returns the value or `None`; on any other parse result (list,
string, number, boolean, null) Python raises `AttributeError`, which
the `except` clause does not catch. -/
def extract_date : JsonLoadResult → Except PyExc (Option Json)
  | .decodeError => .ok none
  | .typeError => .ok none
  | .ok (.obj fields) => .ok (fields.lookup "datePosted")
  | .ok .null => .error .attributeError
  | .ok (.bool _) => .error .attributeError
  | .ok (.num _) => .error .attributeError
  | .ok (.str _) => .error .attributeError
  | .ok (.arr _) => .error .attributeError

/-- C4 counterexample: the input string "[]" is valid JSON, so
`json.loads` succeeds with a list, and `data.get` raises an uncaught
`AttributeError` instead of returning "no value". -/
theorem C4_counterexample_nonobject_raises :
    extract_date (.ok (.arr [])) = .error .attributeError := rfl

/-- C4 amended: the extractor returns "no value" for non-string cells,
for strings that are not valid JSON, and for JSON objects lacking the
key, and returns the stored value for objects carrying the key; but for
an input that parses as valid JSON of any non-object shape it raises an
uncaught `AttributeError`. -/
theorem C4_extract_date_cases (fields : List (String × Json)) (v : Json)
    (h : fields.lookup "datePosted" = some v) :
    extract_date .decodeError = .ok none ∧
    extract_date .typeError = .ok none ∧
    (∀ fs : List (String × Json), extract_date (.ok (.obj fs)) = .ok (fs.lookup "datePosted")) ∧
    extract_date (.ok (.obj fields)) = .ok (some v) ∧
    (∀ es, extract_date (.ok (.arr es)) = .error .attributeError) ∧
    (∀ b, extract_date (.ok (.bool b)) = .error .attributeError) ∧
    (∀ n, extract_date (.ok (.num n)) = .error .attributeError) ∧
    (∀ s, extract_date (.ok (.str s)) = .error .attributeError) ∧
    extract_date (.ok .null) = .error .attributeError := by
  refine ⟨rfl, rfl, fun fs => rfl, ?_, fun es => rfl, fun b => rfl, fun n => rfl,
    fun s => rfl, rfl⟩
  show Except.ok (fields.lookup "datePosted") = Except.ok (some v)
  rw [h]

/-- Witness for C4's amended statement at a concrete object. -/
theorem C4_witness :
    extract_date (.ok (.obj [("datePosted", Json.str "2021-07-01")])) =
      .ok (some (Json.str "2021-07-01")) :=
  (C4_extract_date_cases [("datePosted", Json.str "2021-07-01")]
    (Json.str "2021-07-01") rfl).2.2.2.1

/-! ### Weighted skill ranking (`clean_skills_plot.py`, steps 4-6)

The TF-IDF matrix itself is the external statistical collaborator; the
code under verification consumes its per-term summed weights
(`matrix.sum(axis=0).A1`) and ranks terms with
`argsort()[-10:][::-1]`. -/

/-- numpy `argsort` (ascending, stable).  numpy's default sort is an
introsort that runs insertion sort — a stable sort — on arrays of at
most 16 elements, and the vocabulary here has at most 10 terms
(`max_features=10`). -/
def argsortAsc (l : List ℚ) : List Nat :=
  (sortStable (fun a b => decide (a.2 ≤ b.2)) l.enum).map Prod.fst

/-- `top_skills_indeed_idx`: `sums.argsort()[-10:][::-1]` — the last 10
positions of the ascending argsort, reversed. -/
def top_skills_indeed_idx (sums : List ℚ) : List Nat :=
  ((argsortAsc sums).drop ((argsortAsc sums).length - 10)).reverse

/-- Modelled from the spec's words (§4.4): report the top 10 terms by
summed weight in descending order, ties broken by vocabulary order
(i.e. by ascending vocabulary index). -/
def topIdxSpecOrder (sums : List ℚ) : List Nat :=
  ((sortStable (fun a b => decide (b.2 ≤ a.2)) sums.enum).map Prod.fst).take 10

/-- C7 counterexample: two terms with tied summed weight come out in
reverse vocabulary order (higher index first), not vocabulary order. -/
theorem C7_counterexample_tie_order :
    top_skills_indeed_idx [1, 1] = [1, 0] ∧ topIdxSpecOrder [1, 1] = [0, 1] ∧
    top_skills_indeed_idx [1, 1] ≠ topIdxSpecOrder [1, 1] :=
  ⟨by decide, by decide, by decide⟩

theorem enum_pairwise_fst_lt (l : List ℚ) :
    l.enum.Pairwise (fun a b => a.1 < b.1) := by
  rw [List.pairwise_iff_getElem]
  intro i j hi hj hij
  simp only [List.getElem_enum]
  exact hij

theorem mem_argsortAsc_pair (sums : List ℚ) (p : Nat × ℚ)
    (h : p ∈ sortStable (fun a b : Nat × ℚ => decide (a.2 ≤ b.2)) sums.enum) :
    p.2 = sums.getD p.1 0 ∧ p.1 < sums.length := by
  have hmem : p ∈ sums.enum := (sortStable_perm _ _).mem_iff.mp h
  obtain ⟨i, x⟩ := p
  have h2 := List.mk_mem_enum_iff_getElem?.mp hmem
  constructor
  · simp [List.getD, h2]
  · exact (List.getElem?_eq_some.mp h2).1

/-- C7 amended: the reported index list ranks the (at most 10 strong)
vocabulary by summed weight descending with ties broken by *reverse*
vocabulary order; it lists `min 10 n` valid indices, and when the
vocabulary has at most 10 terms (as `max_features=10` guarantees) every
term is listed. -/
theorem C7_weighted_ranking (sums : List ℚ) :
    (top_skills_indeed_idx sums).Pairwise (fun i j =>
      sums.getD j 0 < sums.getD i 0 ∨ (sums.getD i 0 = sums.getD j 0 ∧ j < i)) ∧
    (top_skills_indeed_idx sums).length = min 10 sums.length ∧
    (∀ i ∈ top_skills_indeed_idx sums, i < sums.length) ∧
    (sums.length ≤ 10 → ∀ i, i < sums.length → i ∈ top_skills_indeed_idx sums) := by
  have hlen_sorted :
      (sortStable (fun a b : Nat × ℚ => decide (a.2 ≤ b.2)) sums.enum).length =
        sums.length := by
    rw [(sortStable_perm _ _).length_eq, List.enum_length]
  have hlen : (argsortAsc sums).length = sums.length := by
    rw [argsortAsc, List.length_map, hlen_sorted]
  refine ⟨?_, ?_, ?_, ?_⟩
  · -- pairwise ranking order
    have hsorted := sortStable_pairwise (fun a b : Nat × ℚ => decide (a.2 ≤ b.2))
      (fun a b => a.1 < b.1)
      (fun a b c hab hbc => by
        simp only [decide_eq_true_eq] at hab hbc ⊢
        exact le_trans hab hbc)
      sums.enum (enum_pairwise_fst_lt sums)
    have hconv : (sortStable (fun a b : Nat × ℚ => decide (a.2 ≤ b.2)) sums.enum).Pairwise
        (fun a b => sums.getD a.1 0 < sums.getD b.1 0 ∨
          (sums.getD a.1 0 = sums.getD b.1 0 ∧ a.1 < b.1)) := by
      refine List.Pairwise.imp_of_mem ?_ hsorted
      intro a b ha hb hab
      have hav := (mem_argsortAsc_pair sums a ha).1
      have hbv := (mem_argsortAsc_pair sums b hb).1
      rcases hab with hlt | ⟨h1, h2, h3⟩
      · left
        rw [← hav, ← hbv]
        exact lt_of_not_le (by simpa using hlt)
      · simp only [decide_eq_true_eq] at h1 h2
        right
        rw [← hav, ← hbv]
        exact ⟨le_antisymm h1 h2, h3⟩
    have hmap : (argsortAsc sums).Pairwise
        (fun i j => sums.getD i 0 < sums.getD j 0 ∨
          (sums.getD i 0 = sums.getD j 0 ∧ i < j)) := by
      rw [argsortAsc, List.pairwise_map]
      exact hconv
    have hdrop := hmap.sublist (List.drop_sublist ((argsortAsc sums).length - 10) _)
    rw [top_skills_indeed_idx, List.pairwise_reverse]
    refine List.Pairwise.imp ?_ hdrop
    intro i j hij
    rcases hij with hlt | ⟨heq, hlt2⟩
    · exact .inl hlt
    · exact .inr ⟨heq.symm, hlt2⟩
  · -- length
    rw [top_skills_indeed_idx, List.length_reverse, List.length_drop, hlen]
    omega
  · -- membership bound
    intro i hi
    rw [top_skills_indeed_idx, List.mem_reverse] at hi
    have hi2 : i ∈ argsortAsc sums := List.mem_of_mem_drop hi
    rw [argsortAsc] at hi2
    rcases List.mem_map.mp hi2 with ⟨p, hp, rfl⟩
    exact (mem_argsortAsc_pair sums p hp).2
  · -- completeness for small vocabularies
    intro hsmall i hi
    rw [top_skills_indeed_idx, List.mem_reverse]
    have hz : (argsortAsc sums).length - 10 = 0 := by omega
    rw [hz, List.drop_zero, argsortAsc]
    refine List.mem_map.mpr ⟨(i, sums.getD i 0), ?_, rfl⟩
    refine (sortStable_perm _ _).mem_iff.mpr ?_
    refine List.mk_mem_enum_iff_getElem?.mpr ?_
    rw [List.getElem?_eq_getElem hi]
    simp [List.getD, List.getElem?_eq_getElem hi]

/-- Witness for C7's amended statement at a concrete weight vector. -/
theorem C7_witness : (top_skills_indeed_idx [1, 1]).length = min 10 ([1, 1] : List ℚ).length :=
  (C7_weighted_ranking [1, 1]).2.1

/-! ### Label post-processing (`skill_demand_evolution.py`, step 6) -/

/-- `series.str.replace(r'\s*PHRASE', '', regex=True)` for a literal
phrase starting with a non-whitespace character: scan left to right
with the given fuel (one unit per examined character suffices) and at
each position remove the phrase together with the maximal run of
whitespace immediately before it; all occurrences are removed,
case-sensitively. -/
def stripScanF (phrase : List Char) : Nat → List Char → List Char
  | _, [] => []
  | 0, l => l
  | fuel + 1, c :: rest =>
    if phrase.isPrefixOf ((c :: rest).dropWhile Char.isWhitespace) = true ∧ phrase ≠ [] then
      stripScanF phrase fuel (((c :: rest).dropWhile Char.isWhitespace).drop phrase.length)
    else c :: stripScanF phrase fuel rest

/-- `.str.strip()` on one label. -/
def pyStripStr (s : String) : String := String.mk (pyStrip s.toList)

/-- One `.str.replace(r'\s*' + phrase, '', regex=True)` pass. -/
def replaceWsPhrase (phrase s : String) : String :=
  String.mk (stripScanF phrase.toList s.toList.length s.toList)

/-- Lines 41-42 of `skill_demand_evolution.py` applied to one label:
replace `\s*\(required\)`, strip, replace `\s*matching qualification`,
strip. -/
def processLabel (s : String) : String :=
  pyStripStr (replaceWsPhrase "matching qualification"
    (pyStripStr (replaceWsPhrase "(required)" s)))

/-- The relabelling of the `rising_skills` index: only the label column
is rewritten, the trend data columns are carried through. -/
def relabelRising (rows : List (String × TrendRow)) : List (String × TrendRow) :=
  rows.map (fun p => (processLabel p.1, p.2))

/-- Modelled from the spec's words (§4.6): strip the noise phrase only
when it occurs as an exact trailing phrase of the label, matching
case-insensitively, then trim. -/
def stripTrailingPhraseCI (phrase s : String) : String :=
  if (pyLower phrase.toList).isSuffixOf (pyLower s.toList) then
    String.mk (pyStrip (s.toList.take (s.toList.length - phrase.toList.length)))
  else s

/-- Modelled from the spec's words: both noise phrases stripped as exact
trailing phrases, case-insensitively. -/
def labelCleanupSpec (s : String) : String :=
  stripTrailingPhraseCI "matching qualification" (stripTrailingPhraseCI "(required)" s)

/-- C9 counterexample: the code removes a mid-string "(required)" (the
spec's trailing-only cleanup would not), and it does not remove a
trailing "(Required)" that differs only in case (the spec's
case-insensitive cleanup would). -/
theorem C9_counterexample_not_trailing_not_ci :
    processLabel "a (required) b" = "a b" ∧
    labelCleanupSpec "a (required) b" = "a (required) b" ∧
    processLabel "python (Required)" = "python (Required)" ∧
    labelCleanupSpec "python (Required)" = "python" :=
  ⟨by decide, by decide, by decide, by decide⟩

/-- A replace pass over a label free of the phrase leaves it unchanged. -/
theorem stripScanF_id_of_no_occurrence (phrase : List Char) :
    ∀ (fuel : Nat) (l : List Char), ¬ (phrase <:+: l) → stripScanF phrase fuel l = l := by
  intro fuel
  induction fuel with
  | zero => intro l h; cases l <;> rfl
  | succ f ih =>
    intro l h
    cases l with
    | nil => rfl
    | cons c rest =>
      have hcond : ¬ (phrase.isPrefixOf ((c :: rest).dropWhile Char.isWhitespace) = true ∧
          phrase ≠ []) := by
        rintro ⟨hpre, _⟩
        exact h ((List.isPrefixOf_iff_prefix.mp hpre).isInfix.trans
          (List.dropWhile_suffix _).isInfix)
      rw [stripScanF, if_neg hcond, ih rest (fun hinf => h (List.infix_cons hinf))]

theorem dropWhile_prefix_eq (p : Char → Bool) (A B : List Char) (hpre : B <+: A)
    (hA : A.dropWhile p = A) : B.dropWhile p = B := by
  cases B with
  | nil => rfl
  | cons b B' =>
    have hb : p b = false := by
      rcases hpre with ⟨t, ht⟩
      subst ht
      by_contra hb
      rw [Bool.not_eq_false] at hb
      rw [List.cons_append, List.dropWhile_cons_of_pos hb] at hA
      have hlen := congrArg List.length hA
      rw [List.length_cons] at hlen
      have hle := (List.dropWhile_suffix (l := B' ++ t) p).length_le
      omega
    rw [List.dropWhile_cons_of_neg (by simp [hb])]

theorem pyStrip_idem (l : List Char) : pyStrip (pyStrip l) = pyStrip l := by
  have hA : (l.dropWhile Char.isWhitespace).dropWhile Char.isWhitespace =
      l.dropWhile Char.isWhitespace := List.dropWhile_idempotent _ _
  have hBpre : pyStrip l <+: l.dropWhile Char.isWhitespace := by
    have h := List.dropWhile_suffix
      (l := (l.dropWhile Char.isWhitespace).reverse) Char.isWhitespace
    have h3 := List.reverse_prefix.mpr (by simpa using h)
    simpa [pyStrip] using h3
  have h1 : (pyStrip l).dropWhile Char.isWhitespace = pyStrip l :=
    dropWhile_prefix_eq _ _ _ hBpre hA
  have h2 : (pyStrip l).reverse =
      (l.dropWhile Char.isWhitespace).reverse.dropWhile Char.isWhitespace := by
    rw [pyStrip, List.reverse_reverse]
  show (((pyStrip l).dropWhile Char.isWhitespace).reverse.dropWhile
      Char.isWhitespace).reverse = pyStrip l
  rw [h1, h2, List.dropWhile_idempotent, ← h2, List.reverse_reverse]

/-- C9 amended: the post-processing removes every occurrence — anywhere
in the label, not only trailing — of optional whitespace followed by the
exact phrase, matching case-sensitively, and then strips surrounding
whitespace; a label containing neither phrase is only whitespace-
trimmed, and the trend data associated with each label is unchanged. -/
theorem C9_label_postprocessing (s : String)
    (h1 : containsSub s.toList "(required)".toList = false)
    (h2 : containsSub s.toList "matching qualification".toList = false) :
    processLabel s = pyStripStr s ∧
    (∀ rows : List (String × TrendRow),
      (relabelRising rows).map Prod.snd = rows.map Prod.snd) ∧
    processLabel "python (required)" = "python" ∧
    processLabel "x (required) y (required)" = "x y" ∧
    processLabel "python (Required)" = "python (Required)" ∧
    processLabel "data modeling matching qualification" = "data modeling" := by
  refine ⟨?_, ?_, by decide, by decide, by decide, by decide⟩
  · have h1' : ¬ (("(required)" : String).toList <:+: s.toList) := by
      intro hinf
      rw [(containsSub_iff _ _).mpr hinf] at h1
      cases h1
    have hrep1 : replaceWsPhrase "(required)" s = s := by
      rw [replaceWsPhrase, stripScanF_id_of_no_occurrence _ _ _ h1']
      rfl
    have hs1 : (pyStripStr s).toList = pyStrip s.toList := rfl
    have h2' : ¬ (("matching qualification" : String).toList <:+: (pyStripStr s).toList) := by
      intro hinf
      rw [hs1] at hinf
      have hinf2 := hinf.trans (pyStrip_within s.toList)
      rw [(containsSub_iff _ _).mpr hinf2] at h2
      cases h2
    have hrep2 : replaceWsPhrase "matching qualification" (pyStripStr s) = pyStripStr s := by
      rw [replaceWsPhrase, stripScanF_id_of_no_occurrence _ _ _ h2']
      rfl
    rw [processLabel, hrep1, hrep2]
    show String.mk (pyStrip (pyStripStr s).toList) = pyStripStr s
    rw [hs1, pyStrip_idem]
    rfl
  · intro rows
    induction rows with
    | nil => rfl
    | cons r rs ih => simp only [relabelRising, List.map_cons] at ih ⊢; rw [ih]

/-- Witness for C9's amended statement at a phrase-free label. -/
theorem C9_witness : processLabel "python" = pyStripStr "python" :=
  (C9_label_postprocessing "python" (by decide) (by decide)).1

end JobMarket
